import Mathlib

/-!
Shallow embedding of the tile-matching engine of `src/process.py`:
the masked-agreement scorer (`Tileset.__compute_score`), the sliding-window
enumeration inside `Tileset.search`, and the result aggregation loop of
`BaseLoader.search`.  Images are rasters of RGBA pixels; the machine floats
of the source are modelled as rationals (every score is a ratio of two
machine integers, so no rounding is lost).
-/

set_option maxRecDepth 100000

namespace Lmz

/-- One RGBA pixel, each channel a byte value in the source arrays. -/
structure Pixel where
  r : Nat
  g : Nat
  b : Nat
  a : Nat
deriving DecidableEq

/-- A decoded raster: width, height and a pixel lookup `(x, y) -> Pixel`,
mirroring a `cv2` array of shape `(height, width, 4)`. -/
structure Image where
  width : Nat
  height : Nat
  pix : Nat → Nat → Pixel

/-- `img[y0:y0+h, x0:x0+w]`: the numpy slice used by `Tileset.search`
(both offsets already clipped to be non-negative in the source). -/
def Image.slice (img : Image) (x0 y0 w h : Nat) : Image :=
  ⟨w, h, fun x y => img.pix (x0 + x) (y0 + y)⟩

/-- `np.count_nonzero(img[:, :, 3] == 255)`: the number of fully
opaque pixels of the whole image (`opaque_pixels_count` in `Tileset.search`). -/
def opaquePixelsCount (img : Image) : Nat :=
  ((Finset.range img.height ×ˢ Finset.range img.width).filter
    (fun p => (img.pix p.2 p.1).a = 255)).card

/-- `np.count_nonzero(comp & mask)` of `Tileset.__compute_score`:
positions (iterated over `a`'s shape; numpy requires the two shapes equal)
where the two pixels agree on all four channels and `a` is fully opaque. -/
def agreePixelsCount (a b : Image) : Nat :=
  ((Finset.range a.height ×ˢ Finset.range a.width).filter
    (fun p => a.pix p.2 p.1 = b.pix p.2 p.1 ∧ (a.pix p.2 p.1).a = 255)).card

/-- `Tileset.__compute_score(a, b, denominator)`. -/
def computeScore (a b : Image) (denominator : Nat) : ℚ :=
  if denominator = 0 then 0
  else (agreePixelsCount a b : ℚ) / (denominator : ℚ)

/-- `Tileset._compute_score(a, b)`: the debugging scorer, which computes the
denominator from the window `a` itself. -/
def computeScoreDebug (a b : Image) : ℚ :=
  computeScore a b (opaquePixelsCount a)

/-- Python `range(start, stop, step)` for a positive step and integer
start/stop, as the list of its elements. -/
def pyRange (start stop : Int) (step : Nat) : List Int :=
  if start < stop ∧ 0 < step then
    (List.range (((stop - start).toNat - 1) / step + 1)).map
      (fun k : Nat => start + (k : Int) * (step : Int))
  else []

/-- `SIMILARITY = 0.9`, the default threshold of `Tileset.search`. -/
def SIMILARITY : ℚ := 9 / 10

/-- `TILE_SIZE = 16`, the default grid stride of `Tileset.search`. -/
def TILE_SIZE : Nat := 16

/-- A region `(x, y, width, height)` as built by `Tileset.search`. -/
abbrev Region : Type := Int × Int × Int × Int

/-- `Tile = tuple[Region, Region, float]`: tileset region, single region,
confidence. -/
abbrev Tile : Type := Region × Region × ℚ

/-- The clipped tileset-side window `self.cv2[ty0:ty1, tx0:tx1]` for grid
origin `(j, i)` of `Tileset.search`. -/
def tilesetWindow (tileset single : Image) (j i : Int) : Image :=
  tileset.slice (max 0 i).toNat (max 0 j).toNat
    (min (tileset.width : Int) (i + single.width) - max 0 i).toNat
    (min (tileset.height : Int) (j + single.height) - max 0 j).toNat

/-- The clipped single-side window `single.cv2[sy0:sy1, sx0:sx1]` for grid
origin `(j, i)` of `Tileset.search`. -/
def singleWindow (tileset single : Image) (j i : Int) : Image :=
  single.slice (max 0 (-i)).toNat (max 0 (-j)).toNat
    (min (single.width : Int) (tileset.width - i) - max 0 (-i)).toNat
    (min (single.height : Int) (tileset.height - j) - max 0 (-j)).toNat

/-- The raw score `self.__compute_score(s, t, opaque_pixels_count)` computed
by `Tileset.search` at grid origin `(j, i)`. -/
def rawScoreAt (tileset single : Image) (j i : Int) : ℚ :=
  computeScore (singleWindow tileset single j i) (tilesetWindow tileset single j i)
    (opaquePixelsCount single)

/-- `t_region = tx0, ty0, tx1 - tx0, ty1 - ty0` of `Tileset.search`. -/
def tRegion (tileset single : Image) (j i : Int) : Region :=
  (max 0 i, max 0 j,
   min (tileset.width : Int) (i + single.width) - max 0 i,
   min (tileset.height : Int) (j + single.height) - max 0 j)

/-- `s_region = sx0, sy0, sx1 - sx0, sy1 - sy0` of `Tileset.search`. -/
def sRegion (tileset single : Image) (j i : Int) : Region :=
  (max 0 (-i), max 0 (-j),
   min (single.width : Int) (tileset.width - i) - max 0 (-i),
   min (single.height : Int) (tileset.height - j) - max 0 (-j))

/-- The grid origins `(j, i)` enumerated by the two nested `range` loops of
`Tileset.search`. -/
def candidateOrigins (tileset single : Image) (size : Nat) : List (Int × Int) :=
  (pyRange ((size : Int) - single.height) (tileset.height : Int) size).flatMap
    (fun j => (pyRange ((size : Int) - single.width) (tileset.width : Int) size).map
      (fun i => (j, i)))

/-- The tile yielded by `Tileset.search` when the score at `(j, i)` beats the
threshold. -/
def tileAt (tileset single : Image) (threshold : ℚ) (j i : Int) : Tile :=
  (tRegion tileset single j i, sRegion tileset single j i,
   (rawScoreAt tileset single j i - threshold) / (1 - threshold))

/-- `Tileset.search(single, threshold, size)` as the list of yielded tiles. -/
def search (tileset single : Image) (threshold : ℚ) (size : Nat) : List Tile :=
  (candidateOrigins tileset single size).filterMap
    (fun p => if threshold < rawScoreAt tileset single p.1 p.2 then
        some (tileAt tileset single threshold p.1 p.2)
      else none)

/-- `Id = str`: the stable identifier of a loaded image. -/
abbrev ImgId : Type := String

/-- The association state mutated by the aggregation loop of
`BaseLoader.search`: each `Single.tilesets` set and each
`Tileset.tiles[single.id]` list, addressed by identifier. -/
@[ext]
structure AggState where
  singleTilesets : ImgId → Finset ImgId
  tilesetTiles : ImgId → ImgId → List Tile

/-- One iteration of the result loop of `BaseLoader.search` on a result
`(tileset_id, single_id, tiles)`: skip when `tiles` is empty, else
`single.add_tileset(tileset)` and `tileset.add_tile(single, tile)` for each
tile, in order. -/
def aggStep (st : AggState) (r : ImgId × ImgId × List Tile) : AggState :=
  if r.2.2 = [] then st
  else
    { singleTilesets := fun s =>
        if s = r.2.1 then insert r.1 (st.singleTilesets s) else st.singleTilesets s
      tilesetTiles := fun t s =>
        if t = r.1 ∧ s = r.2.1 then st.tilesetTiles t s ++ r.2.2
        else st.tilesetTiles t s }

/-- The whole result loop of `BaseLoader.search` over the collected worker
results. -/
def aggregate (init : AggState) (results : List (ImgId × ImgId × List Tile)) :
    AggState :=
  results.foldl aggStep init

/-- The state before the loop runs: every `Single.tilesets` is `set()` and
every `Tileset.tiles` an empty `defaultdict(list)`. -/
def emptyAgg : AggState :=
  ⟨fun _ => ∅, fun _ _ => []⟩

/-- A 16x16 single, fully opaque, all pixels pairwise distinct: the single of
end-to-end scenario 1. -/
def sgC9 : Image :=
  ⟨16, 16, fun x y => ⟨x, y, 7, 255⟩⟩

/-- A 32x16 tileset whose right half is an exact byte copy of `sgC9` at pixel
offset (16, 0) and whose left half is transparent black. -/
def tsC9 : Image :=
  ⟨32, 16, fun x y => if x < 16 then ⟨0, 0, 0, 0⟩ else ⟨x - 16, y, 7, 255⟩⟩

/-- A 1x1 fully transparent image. -/
def sgClear : Image :=
  ⟨1, 1, fun _ _ => ⟨0, 0, 0, 0⟩⟩

/-- A 1x1 fully opaque image. -/
def imgOne : Image :=
  ⟨1, 1, fun _ _ => ⟨1, 2, 3, 255⟩⟩

/-- A 1x1 opaque single, smaller than `tsSmall` in both dimensions. -/
def sgTiny : Image :=
  ⟨1, 1, fun _ _ => ⟨0, 0, 0, 255⟩⟩

/-- A 10x10 opaque tileset, strictly larger than `sgTiny` yet smaller than
the default stride. -/
def tsSmall : Image :=
  ⟨10, 10, fun _ _ => ⟨0, 0, 0, 255⟩⟩

/-- A 16x16 fully opaque image (offset pixel values), used as a tileset and a
single of exactly one stride in size. -/
def img16 : Image :=
  ⟨16, 16, fun x y => ⟨x, y, 0, 255⟩⟩

/-- A concrete accepted tile used by the aggregation witnesses. -/
def tileW : Tile :=
  ((0, 0, 16, 16), (0, 0, 16, 16), 1)

/-- A two-element worker-result list with distinct (tileset, single) pairs. -/
def resultsW : List (ImgId × ImgId × List Tile) :=
  [("#0", "#2", [tileW]), ("#1", "#2", [])]

/-- `resultsW` in the opposite arrival order. -/
def resultsWrev : List (ImgId × ImgId × List Tile) :=
  [("#1", "#2", []), ("#0", "#2", [tileW])]

@[simp]
theorem slice_width (img : Image) (x0 y0 w h : Nat) :
    (img.slice x0 y0 w h).width = w := rfl

@[simp]
theorem slice_height (img : Image) (x0 y0 w h : Nat) :
    (img.slice x0 y0 w h).height = h := rfl

@[simp]
theorem slice_pix (img : Image) (x0 y0 w h x y : Nat) :
    (img.slice x0 y0 w h).pix x y = img.pix (x0 + x) (y0 + y) := rfl

theorem mem_pyRange_bounds {start stop : Int} {step : Nat} {j : Int}
    (h : j ∈ pyRange start stop step) : start ≤ j ∧ j < stop := by
  unfold pyRange at h
  split at h
  case isTrue hc =>
    obtain ⟨k, hk, rfl⟩ := List.mem_map.1 h
    rw [List.mem_range] at hk
    have hk' : k ≤ ((stop - start).toNat - 1) / step := Nat.lt_succ_iff.mp hk
    have h3 : k * step ≤ (stop - start).toNat - 1 :=
      le_trans (Nat.mul_le_mul_right _ hk') (Nat.div_mul_le_self _ _)
    have hcast : (k : Int) * (step : Int) = ((k * step : Nat) : Int) :=
      (Nat.cast_mul k step).symm
    rw [hcast]
    omega
  case isFalse => simp at h

theorem start_mem_pyRange {start stop : Int} {step : Nat}
    (h1 : start < stop) (h2 : 0 < step) : start ∈ pyRange start stop step := by
  unfold pyRange
  rw [if_pos ⟨h1, h2⟩]
  exact List.mem_map.2 ⟨0, List.mem_range.2 (Nat.succ_pos _), by simp⟩

theorem mem_candidateOrigins {tileset single : Image} {size : Nat} {j i : Int}
    (h : (j, i) ∈ candidateOrigins tileset single size) :
    ((size : Int) - single.height ≤ j ∧ j < (tileset.height : Int)) ∧
      ((size : Int) - single.width ≤ i ∧ i < (tileset.width : Int)) := by
  unfold candidateOrigins at h
  obtain ⟨j', hj', hmem⟩ := List.mem_flatMap.1 h
  obtain ⟨i', hi', heq⟩ := List.mem_map.1 hmem
  obtain ⟨rfl, rfl⟩ := Prod.mk.injEq .. ▸ heq
  exact ⟨mem_pyRange_bounds hj', mem_pyRange_bounds hi'⟩

theorem agreePixelsCount_eq_zero {a : Image} (b : Image)
    (h : a.width = 0 ∨ a.height = 0) : agreePixelsCount a b = 0 := by
  unfold agreePixelsCount
  rcases h with h | h <;> simp [h]

theorem agreePixelsCount_slice_le (im b : Image) (x0 y0 w h : Nat)
    (hw : x0 + w ≤ im.width) (hh : y0 + h ≤ im.height) :
    agreePixelsCount (im.slice x0 y0 w h) b ≤ opaquePixelsCount im := by
  unfold agreePixelsCount opaquePixelsCount
  apply Finset.card_le_card_of_injOn (fun p => (y0 + p.1, x0 + p.2))
  · intro p hp
    simp only [Finset.mem_filter, Finset.mem_product, Finset.mem_range,
      slice_height, slice_width, slice_pix] at hp ⊢
    exact ⟨⟨by omega, by omega⟩, hp.2.2⟩
  · intro p _ q _ hpq
    rw [Prod.mk.injEq] at hpq
    exact Prod.ext (by omega) (by omega)

theorem agree_le_opaquePixels (tileset single : Image) (j i : Int) :
    agreePixelsCount (singleWindow tileset single j i)
        (tilesetWindow tileset single j i)
      ≤ opaquePixelsCount single := by
  by_cases hpos : max 0 (-i) < min (single.width : Int) (tileset.width - i) ∧
      max 0 (-j) < min (single.height : Int) (tileset.height - j)
  · apply agreePixelsCount_slice_le
    · omega
    · omega
  · have h0 : (min (single.width : Int) (tileset.width - i) - max 0 (-i)).toNat = 0 ∨
        (min (single.height : Int) (tileset.height - j) - max 0 (-j)).toNat = 0 := by
      omega
    calc agreePixelsCount (singleWindow tileset single j i)
          (tilesetWindow tileset single j i) = 0 :=
        agreePixelsCount_eq_zero _ h0
      _ ≤ opaquePixelsCount single := Nat.zero_le _

theorem computeScore_nonneg (a b : Image) (d : Nat) : 0 ≤ computeScore a b d := by
  unfold computeScore
  split
  · exact le_refl 0
  · positivity

theorem computeScore_le_one (a b : Image) (d : Nat)
    (h : agreePixelsCount a b ≤ d) : computeScore a b d ≤ 1 := by
  unfold computeScore
  split
  case isTrue => norm_num
  case isFalse hd =>
    rw [div_le_one (by exact_mod_cast Nat.pos_of_ne_zero hd)]
    exact_mod_cast h

theorem rawScoreAt_nonneg (tileset single : Image) (j i : Int) :
    0 ≤ rawScoreAt tileset single j i :=
  computeScore_nonneg _ _ _

theorem rawScoreAt_le_one (tileset single : Image) (j i : Int) :
    rawScoreAt tileset single j i ≤ 1 :=
  computeScore_le_one _ _ _ (agree_le_opaquePixels tileset single j i)

@[simp]
theorem aggregate_nil (init : AggState) : aggregate init [] = init := rfl

@[simp]
theorem aggregate_cons (init : AggState) (r : ImgId × ImgId × List Tile)
    (rest : List (ImgId × ImgId × List Tile)) :
    aggregate init (r :: rest) = aggregate (aggStep init r) rest := rfl

theorem aggStep_empty (st : AggState) (r : ImgId × ImgId × List Tile)
    (h : r.2.2 = []) : aggStep st r = st := by
  unfold aggStep
  rw [if_pos h]

theorem aggStep_preserve (st : AggState) (r : ImgId × ImgId × List Tile)
    (tid sid : ImgId) (h : r.1 = tid → r.2.1 = sid → r.2.2 = []) :
    (aggStep st r).tilesetTiles tid sid = st.tilesetTiles tid sid ∧
      (tid ∈ (aggStep st r).singleTilesets sid ↔ tid ∈ st.singleTilesets sid) := by
  unfold aggStep
  split
  case isTrue => exact ⟨rfl, Iff.rfl⟩
  case isFalse hne =>
    constructor
    · dsimp only
      rw [if_neg]
      rintro ⟨h1, h2⟩
      exact hne (h h1.symm h2.symm)
    · dsimp only
      by_cases hs : sid = r.2.1
      · have htid : tid ≠ r.1 := fun he => hne (h he.symm hs.symm)
        rw [if_pos hs, Finset.mem_insert, or_iff_right htid]
      · rw [if_neg hs]

theorem aggregate_untouched (results : List (ImgId × ImgId × List Tile))
    (init : AggState) (tid sid : ImgId)
    (h : ∀ r ∈ results, r.1 = tid → r.2.1 = sid → r.2.2 = []) :
    (aggregate init results).tilesetTiles tid sid = init.tilesetTiles tid sid ∧
      (tid ∈ (aggregate init results).singleTilesets sid ↔
        tid ∈ init.singleTilesets sid) := by
  induction results generalizing init with
  | nil => exact ⟨rfl, Iff.rfl⟩
  | cons r rest ih =>
    rw [aggregate_cons]
    have hstep := aggStep_preserve init r tid sid (h r (List.mem_cons_self r rest))
    have hrest := ih (aggStep init r) (fun x hx => h x (List.mem_cons_of_mem r hx))
    exact ⟨hrest.1.trans hstep.1, hrest.2.trans hstep.2⟩

theorem aggregate_touched (results : List (ImgId × ImgId × List Tile))
    (init : AggState) (tid sid : ImgId) (tiles : List Tile)
    (hmem : (tid, sid, tiles) ∈ results) (hne : tiles ≠ [])
    (hnd : (results.map (fun r => (r.1, r.2.1))).Nodup) :
    (aggregate init results).tilesetTiles tid sid =
        init.tilesetTiles tid sid ++ tiles ∧
      tid ∈ (aggregate init results).singleTilesets sid := by
  induction results generalizing init with
  | nil => cases hmem
  | cons r rest ih =>
    rw [aggregate_cons]
    rw [List.map_cons, List.nodup_cons] at hnd
    rcases List.mem_cons.1 hmem with heq | hmem'
    · subst heq
      have hstep_t : (aggStep init (tid, sid, tiles)).tilesetTiles tid sid =
          init.tilesetTiles tid sid ++ tiles := by
        unfold aggStep
        rw [if_neg hne]
        dsimp only
        rw [if_pos ⟨rfl, rfl⟩]
      have hstep_s : tid ∈ (aggStep init (tid, sid, tiles)).singleTilesets sid := by
        unfold aggStep
        rw [if_neg hne]
        dsimp only
        rw [if_pos rfl]
        exact Finset.mem_insert_self _ _
      have hno : ∀ x ∈ rest, x.1 = tid → x.2.1 = sid → x.2.2 = [] := by
        intro x hx h1 h2
        exact absurd (List.mem_map.2 ⟨x, hx, by rw [h1, h2]⟩) hnd.1
      have hu := aggregate_untouched rest (aggStep init (tid, sid, tiles)) tid sid hno
      exact ⟨hu.1.trans hstep_t, hu.2.2 hstep_s⟩
    · have hkey : r.1 = tid → r.2.1 = sid → r.2.2 = [] := by
        intro h1 h2
        exact absurd (List.mem_map.2 ⟨(tid, sid, tiles), hmem', by rw [h1, h2]⟩)
          hnd.1
      have hres := ih (aggStep init r) hmem' hnd.2
      refine ⟨?_, hres.2⟩
      rw [hres.1, (aggStep_preserve init r tid sid hkey).1]

theorem aggStep_comm (st : AggState) (a b : ImgId × ImgId × List Tile)
    (h : ¬(a.1 = b.1 ∧ a.2.1 = b.2.1)) :
    aggStep (aggStep st a) b = aggStep (aggStep st b) a := by
  by_cases ha : a.2.2 = []
  · rw [aggStep_empty st a ha, aggStep_empty (aggStep st b) a ha]
  by_cases hb : b.2.2 = []
  · rw [aggStep_empty st b hb, aggStep_empty (aggStep st a) b hb]
  unfold aggStep
  simp only [if_neg ha, if_neg hb]
  refine AggState.ext (funext fun s => ?_) (funext fun t => funext fun s => ?_)
  · dsimp only
    by_cases hs1 : s = a.2.1
    · by_cases hs2 : s = b.2.1
      · simp only [if_pos hs1, if_pos hs2]
        exact Finset.Insert.comm b.1 a.1 _
      · simp only [if_pos hs1, if_neg hs2]
    · by_cases hs2 : s = b.2.1
      · simp only [if_neg hs1, if_pos hs2]
      · simp only [if_neg hs1, if_neg hs2]
  · dsimp only
    by_cases hca : t = a.1 ∧ s = a.2.1
    · by_cases hcb : t = b.1 ∧ s = b.2.1
      · exact absurd ⟨hca.1.symm.trans hcb.1, hca.2.symm.trans hcb.2⟩ h
      · simp only [if_pos hca, if_neg hcb]
    · by_cases hcb : t = b.1 ∧ s = b.2.1
      · simp only [if_pos hcb, if_neg hca]
      · simp only [if_neg hca, if_neg hcb]

/-- C1: every score computed by `Tileset.search` equals `agree / denominator`
where the denominator is the opaque-pixel count of the entire single image,
`agree` counts the clipped single-window positions that are fully opaque and
agree with the tileset window on all four channels, and the score always lies
in `[0, 1]`. -/
theorem raw_score_agree_over_whole_single_in_unit_interval
    (tileset single : Image) (j i : Int) :
    rawScoreAt tileset single j i =
      (if opaquePixelsCount single = 0 then (0 : ℚ)
       else (agreePixelsCount (singleWindow tileset single j i)
           (tilesetWindow tileset single j i) : ℚ) / (opaquePixelsCount single : ℚ))
    ∧ 0 ≤ rawScoreAt tileset single j i ∧ rawScoreAt tileset single j i ≤ 1 :=
  ⟨rfl, rawScoreAt_nonneg tileset single j i, rawScoreAt_le_one tileset single j i⟩

/-- C2: a single with zero opaque pixels scores `0.0` for every window pair
without reaching the division, and `Tileset.search` on it returns no tiles
for any tileset and any non-negative threshold. -/
theorem transparent_single_never_matches (tileset single : Image)
    (threshold : ℚ) (size : Nat)
    (hden : opaquePixelsCount single = 0) (hth : 0 ≤ threshold) :
    (∀ a b : Image, computeScore a b (opaquePixelsCount single) = 0) ∧
      search tileset single threshold size = [] := by
  have hscore : ∀ a b : Image, computeScore a b (opaquePixelsCount single) = 0 := by
    intro a b
    unfold computeScore
    rw [hden]
    simp
  refine ⟨hscore, ?_⟩
  unfold search
  rw [List.filterMap_eq_nil_iff]
  intro p _
  rw [if_neg]
  rw [show rawScoreAt tileset single p.1 p.2 = 0 from hscore _ _]
  exact not_lt.2 hth

/-- C2 witness: the fully transparent 1x1 single scores out of every search,
here against a 1x1 opaque tileset at the default threshold and stride. -/
theorem transparent_single_never_matches_witness :
    opaquePixelsCount sgClear = 0 ∧ (0 : ℚ) ≤ SIMILARITY ∧
      search imgOne sgClear SIMILARITY TILE_SIZE = [] :=
  ⟨by decide, by norm_num [SIMILARITY],
    (transparent_single_never_matches imgOne sgClear SIMILARITY TILE_SIZE
      (by decide) (by norm_num [SIMILARITY])).2⟩

/-- C3: at the default threshold, a tile is emitted for a candidate origin
exactly when its raw score is strictly above the threshold, with confidence
`(raw - threshold) / (1 - threshold)`; every emitted confidence lies in
`(0, 1]`. -/
theorem search_strict_threshold_confidence_in_unit
    (tileset single : Image) (size : Nat) :
    (∀ tile : Tile, tile ∈ search tileset single SIMILARITY size ↔
      ∃ p ∈ candidateOrigins tileset single size,
        SIMILARITY < rawScoreAt tileset single p.1 p.2 ∧
          tile = tileAt tileset single SIMILARITY p.1 p.2) ∧
    (∀ tile : Tile, tile ∈ search tileset single SIMILARITY size →
      0 < tile.2.2 ∧ tile.2.2 ≤ 1) := by
  have hmem : ∀ tile : Tile, tile ∈ search tileset single SIMILARITY size ↔
      ∃ p ∈ candidateOrigins tileset single size,
        SIMILARITY < rawScoreAt tileset single p.1 p.2 ∧
          tile = tileAt tileset single SIMILARITY p.1 p.2 := by
    intro tile
    unfold search
    rw [List.mem_filterMap]
    constructor
    · rintro ⟨p, hp, hsome⟩
      by_cases hlt : SIMILARITY < rawScoreAt tileset single p.1 p.2
      · rw [if_pos hlt, Option.some.injEq] at hsome
        exact ⟨p, hp, hlt, hsome.symm⟩
      · rw [if_neg hlt] at hsome
        cases hsome
    · rintro ⟨p, hp, hlt, rfl⟩
      exact ⟨p, hp, by rw [if_pos hlt]⟩
  refine ⟨hmem, fun tile htile => ?_⟩
  obtain ⟨p, _, hlt, rfl⟩ := (hmem _).1 htile
  have h1 := rawScoreAt_le_one tileset single p.1 p.2
  have hden : (0 : ℚ) < 1 - SIMILARITY := by norm_num [SIMILARITY]
  constructor
  · show 0 < (rawScoreAt tileset single p.1 p.2 - SIMILARITY) / (1 - SIMILARITY)
    exact div_pos (by linarith) hden
  · show (rawScoreAt tileset single p.1 p.2 - SIMILARITY) / (1 - SIMILARITY) ≤ 1
    rw [div_le_one hden]
    linarith

/-- C4: for every pair of buffers and every grid origin, also negative or
overhanging ones, the clipped tileset-side and single-side regions have the
same width and the same height. -/
theorem clipped_regions_equal_shape (tileset single : Image) (j i : Int) :
    (tRegion tileset single j i).2.2.1 = (sRegion tileset single j i).2.2.1 ∧
      (tRegion tileset single j i).2.2.2 = (sRegion tileset single j i).2.2.2 := by
  dsimp only [tRegion, sRegion]
  constructor <;> omega

/-- C7 counterexample: the two windows are the same fully transparent 1x1
image, byte-identical and equal-shaped, yet the scorer returns `0`, not `1`. -/
theorem identical_window_score_counterexample :
    sgClear.width = sgClear.width ∧ sgClear.height = sgClear.height ∧
      (∀ y < sgClear.height, ∀ x < sgClear.width,
        sgClear.pix x y = sgClear.pix x y) ∧
      computeScoreDebug sgClear sgClear = 0 ∧
      computeScoreDebug sgClear sgClear ≠ 1 := by
  have h0 : computeScoreDebug sgClear sgClear = 0 := by
    unfold computeScoreDebug computeScore
    rw [if_pos (by decide : opaquePixelsCount sgClear = 0)]
  refine ⟨rfl, rfl, by decide, h0, ?_⟩
  rw [h0]
  norm_num

/-- C7 as amended: equal-shaped byte-identical windows score exactly `1`,
provided the single-side window has at least one fully opaque pixel. -/
theorem identical_window_scores_one (a b : Image)
    (_hw : a.width = b.width) (_hh : a.height = b.height)
    (hpix : ∀ y < a.height, ∀ x < a.width, a.pix x y = b.pix x y)
    (hop : 0 < opaquePixelsCount a) :
    computeScoreDebug a b = 1 := by
  have hagree : agreePixelsCount a b = opaquePixelsCount a := by
    unfold agreePixelsCount opaquePixelsCount
    congr 1
    apply Finset.filter_congr
    intro p hp
    simp only [Finset.mem_product, Finset.mem_range] at hp
    rw [hpix p.1 hp.1 p.2 hp.2]
    simp
  unfold computeScoreDebug computeScore
  rw [if_neg (Nat.pos_iff_ne_zero.1 hop), hagree]
  exact div_self (by exact_mod_cast Nat.pos_iff_ne_zero.1 hop)

/-- C7 witness: a 1x1 opaque window against itself scores `1`. -/
theorem identical_window_scores_one_witness :
    (∀ y < imgOne.height, ∀ x < imgOne.width, imgOne.pix x y = imgOne.pix x y) ∧
      0 < opaquePixelsCount imgOne ∧ computeScoreDebug imgOne imgOne = 1 :=
  ⟨by decide, by decide,
    identical_window_scores_one imgOne imgOne rfl rfl (by decide) (by decide)⟩

/-- C8 counterexample: a 1x1 single strictly smaller than a 10x10 tileset,
both with positive dimensions, yields an empty enumeration (and an empty
search) at the default stride 16. -/
theorem enumeration_small_images_counterexample :
    0 < sgTiny.width ∧ 0 < sgTiny.height ∧
      0 < tsSmall.width ∧ 0 < tsSmall.height ∧
      sgTiny.width < tsSmall.width ∧ sgTiny.height < tsSmall.height ∧
      candidateOrigins tsSmall sgTiny TILE_SIZE = [] ∧
      search tsSmall sgTiny SIMILARITY TILE_SIZE = [] := by
  refine ⟨by decide, by decide, by decide, by decide, by decide, by decide,
    by decide, ?_⟩
  unfold search
  rw [(by decide : candidateOrigins tsSmall sgTiny TILE_SIZE = [])]
  rfl

/-- C8 as amended: the enumeration always produces at least one candidate
when tileset height plus single height and tileset width plus single width
each exceed the stride (finiteness holds by construction: the enumeration is
a list). -/
theorem enumeration_nonempty_of_stride_bound (tileset single : Image)
    (size : Nat) (hsize : 0 < size)
    (hh : (size : Int) < tileset.height + single.height)
    (hw : (size : Int) < tileset.width + single.width) :
    candidateOrigins tileset single size ≠ [] := by
  have hj : ((size : Int) - single.height) ∈
      pyRange ((size : Int) - single.height) (tileset.height : Int) size :=
    start_mem_pyRange (by omega) hsize
  have hi : ((size : Int) - single.width) ∈
      pyRange ((size : Int) - single.width) (tileset.width : Int) size :=
    start_mem_pyRange (by omega) hsize
  apply List.ne_nil_of_mem (a := ((size : Int) - single.height,
    (size : Int) - single.width))
  unfold candidateOrigins
  exact List.mem_flatMap.2 ⟨_, hj, List.mem_map.2 ⟨_, hi, rfl⟩⟩

/-- C8 witness: a 16x16 single against a 16x16 tileset at stride 16 gets at
least one candidate alignment. -/
theorem enumeration_nonempty_witness :
    0 < TILE_SIZE ∧ (TILE_SIZE : Int) < img16.height + img16.height ∧
      candidateOrigins img16 img16 TILE_SIZE ≠ [] :=
  ⟨by decide, by decide,
    enumeration_nonempty_of_stride_bound img16 img16 TILE_SIZE
      (by decide) (by decide) (by decide)⟩

/-- C10: every enumerated candidate clips to a region pair that lies fully
inside its buffer and has strictly positive width and height on both sides,
so every slice taken for scoring is in bounds and never empty. -/
theorem candidate_windows_in_bounds (tileset single : Image) (size : Nat)
    (hsize : 0 < size) (htw : 0 < tileset.width) (hth : 0 < tileset.height)
    (hsw : 0 < single.width) (hsh : 0 < single.height) (j i : Int)
    (hmem : (j, i) ∈ candidateOrigins tileset single size) :
    (0 ≤ (tRegion tileset single j i).1 ∧
      0 ≤ (tRegion tileset single j i).2.1 ∧
      0 < (tRegion tileset single j i).2.2.1 ∧
      0 < (tRegion tileset single j i).2.2.2 ∧
      (tRegion tileset single j i).1 + (tRegion tileset single j i).2.2.1 ≤
        (tileset.width : Int) ∧
      (tRegion tileset single j i).2.1 + (tRegion tileset single j i).2.2.2 ≤
        (tileset.height : Int)) ∧
    (0 ≤ (sRegion tileset single j i).1 ∧
      0 ≤ (sRegion tileset single j i).2.1 ∧
      0 < (sRegion tileset single j i).2.2.1 ∧
      0 < (sRegion tileset single j i).2.2.2 ∧
      (sRegion tileset single j i).1 + (sRegion tileset single j i).2.2.1 ≤
        (single.width : Int) ∧
      (sRegion tileset single j i).2.1 + (sRegion tileset single j i).2.2.2 ≤
        (single.height : Int)) := by
  obtain ⟨⟨hj1, hj2⟩, hi1, hi2⟩ := mem_candidateOrigins hmem
  dsimp only [tRegion, sRegion]
  refine ⟨⟨?_, ?_, ?_, ?_, ?_, ?_⟩, ?_, ?_, ?_, ?_, ?_, ?_⟩ <;> omega

/-- C10 witness: the single enumerated origin for two 16x16 images at stride
16 clips to in-bounds non-degenerate regions. -/
theorem candidate_windows_in_bounds_witness :
    (0, 0) ∈ candidateOrigins img16 img16 TILE_SIZE ∧
      0 < (tRegion img16 img16 0 0).2.2.1 ∧
      0 < (sRegion img16 img16 0 0).2.2.2 :=
  ⟨by decide,
    ((candidate_windows_in_bounds img16 img16 TILE_SIZE (by decide) (by decide)
      (by decide) (by decide) (by decide) 0 0 (by decide)).1).2.2.1,
    ((candidate_windows_in_bounds img16 img16 TILE_SIZE (by decide) (by decide)
      (by decide) (by decide) (by decide) 0 0 (by decide)).2).2.2.2.1⟩

/-- C5: starting from the fresh association state, aggregating one result per
(tileset, single) pair records exactly the returned tiles: a pair with a
non-empty result gets its tileset id into the single's set and its tile list
verbatim; a pair with an empty result leaves both structures untouched. -/
theorem aggregation_records_exactly
    (results : List (ImgId × ImgId × List Tile))
    (hnd : (results.map (fun r => (r.1, r.2.1))).Nodup) :
    (∀ tid sid tiles, (tid, sid, tiles) ∈ results → tiles ≠ [] →
      tid ∈ (aggregate emptyAgg results).singleTilesets sid ∧
        (aggregate emptyAgg results).tilesetTiles tid sid = tiles) ∧
    (∀ tid sid tiles, (tid, sid, tiles) ∈ results → tiles = [] →
      tid ∉ (aggregate emptyAgg results).singleTilesets sid ∧
        (aggregate emptyAgg results).tilesetTiles tid sid = []) := by
  constructor
  · intro tid sid tiles hmem hne
    have h := aggregate_touched results emptyAgg tid sid tiles hmem hne hnd
    exact ⟨h.2, h.1.trans (List.nil_append tiles)⟩
  · intro tid sid tiles hmem hemp
    have hno : ∀ x ∈ results, x.1 = tid → x.2.1 = sid → x.2.2 = [] := by
      intro x hx h1 h2
      have hxeq : x = (tid, sid, tiles) :=
        List.inj_on_of_nodup_map hnd hx hmem (by rw [h1, h2])
      rw [hxeq, hemp]
    have h := aggregate_untouched results emptyAgg tid sid hno
    refine ⟨fun hin => ?_, h.1⟩
    exact absurd (h.2.1 hin) (Finset.not_mem_empty tid)

/-- C5 witness: aggregating a non-empty result for pair (#0, #2) and an empty
result for pair (#1, #2) records exactly the first and nothing for the
second. -/
theorem aggregation_records_exactly_witness :
    ("#0" : ImgId) ∈ (aggregate emptyAgg resultsW).singleTilesets "#2" ∧
      (aggregate emptyAgg resultsW).tilesetTiles "#0" "#2" = [tileW] ∧
      ("#1" : ImgId) ∉ (aggregate emptyAgg resultsW).singleTilesets "#2" ∧
      (aggregate emptyAgg resultsW).tilesetTiles "#1" "#2" = [] := by
  have h := aggregation_records_exactly resultsW (by decide)
  have h1 := h.1 "#0" "#2" [tileW] (List.mem_cons_self _ _) (by decide)
  have h2 := h.2 "#1" "#2" []
    (List.mem_cons_of_mem _ (List.mem_cons_self _ _)) rfl
  exact ⟨h1.1, h1.2, h2.1, h2.2⟩

/-- C6: aggregation is order-independent: when the worker results carry
pairwise distinct (tileset, single) keys — one result per dispatched pair —
folding them in any permuted arrival order from the same initial state yields
the identical association state, per-single tile lists in identical order
included. -/
theorem aggregation_commutative (l1 l2 : List (ImgId × ImgId × List Tile))
    (hperm : l1.Perm l2)
    (hnd : (l1.map (fun r => (r.1, r.2.1))).Nodup) (init : AggState) :
    aggregate init l1 = aggregate init l2 := by
  induction hperm generalizing init with
  | nil => rfl
  | cons x h12 ih =>
    rw [aggregate_cons, aggregate_cons]
    rw [List.map_cons, List.nodup_cons] at hnd
    exact ih hnd.2 (aggStep init x)
  | swap x y l =>
    rw [aggregate_cons, aggregate_cons, aggregate_cons, aggregate_cons]
    rw [List.map_cons, List.map_cons, List.nodup_cons, List.mem_cons] at hnd
    have hkey : ¬(y.1 = x.1 ∧ y.2.1 = x.2.1) := by
      rintro ⟨h1, h2⟩
      exact hnd.1 (Or.inl (show (y.1, y.2.1) = (x.1, x.2.1) by rw [h1, h2]))
    rw [aggStep_comm init y x hkey]
  | trans h12 h23 ih12 ih23 =>
    have hnd2 := (h12.map (fun r => (r.1, r.2.1))).nodup_iff.1 hnd
    exact (ih12 hnd init).trans (ih23 hnd2 init)

/-- C6 witness: the two-result list `resultsW` aggregated in either arrival
order produces the identical state. -/
theorem aggregation_commutative_witness :
    aggregate emptyAgg resultsW = aggregate emptyAgg resultsWrev :=
  aggregation_commutative resultsW resultsWrev
    (by unfold resultsW resultsWrev; exact List.Perm.swap _ _ _)
    (by decide) emptyAgg

/-- C9: end-to-end scenario 1: the 32x16 tileset `tsC9` holds an exact byte
copy of the 16x16 single `sgC9` at pixel offset (16, 0); at threshold 0.9 and
stride 16 the search returns exactly one tile, with tileset region
(16, 0, 16, 16), single region (0, 0, 16, 16) and confidence 1. -/
theorem scenario_exact_copy_single_match :
    search tsC9 sgC9 SIMILARITY TILE_SIZE =
      [((16, 0, 16, 16), (0, 0, 16, 16), 1)] := by
  have hco : candidateOrigins tsC9 sgC9 TILE_SIZE = [(0, 0), (0, 16)] := by
    decide
  have hden : opaquePixelsCount sgC9 = 256 := by decide
  have ha0 : agreePixelsCount (singleWindow tsC9 sgC9 0 0)
      (tilesetWindow tsC9 sgC9 0 0) = 0 := by decide
  have ha16 : agreePixelsCount (singleWindow tsC9 sgC9 0 16)
      (tilesetWindow tsC9 sgC9 0 16) = 256 := by decide
  have hr0 : rawScoreAt tsC9 sgC9 0 0 = 0 := by
    unfold rawScoreAt computeScore
    rw [hden, ha0]
    norm_num
  have hr16 : rawScoreAt tsC9 sgC9 0 16 = 1 := by
    unfold rawScoreAt computeScore
    rw [hden, ha16]
    norm_num
  have htile : tileAt tsC9 sgC9 SIMILARITY 0 16 =
      ((16, 0, 16, 16), (0, 0, 16, 16), 1) := by
    unfold tileAt
    rw [hr16]
    refine Prod.ext (by decide) (Prod.ext (by decide) ?_)
    show (1 - SIMILARITY) / (1 - SIMILARITY) = 1
    norm_num [SIMILARITY]
  unfold search
  rw [hco, List.filterMap_cons, List.filterMap_cons, List.filterMap_nil]
  dsimp only
  rw [hr0, hr16]
  rw [if_neg (by norm_num [SIMILARITY]), if_pos (by norm_num [SIMILARITY])]
  rw [htile]

end Lmz
